import Mathlib

/-!
Verification development for the Snaffler log consolidator (`app.py`).

Strings are modelled as `List Char`.  The Python regular expressions
`FILE_PATTERN` and `SHARE_PATTERN` are compiled, fragment by fragment, into a
deterministic staged matcher; every greedy sub-pattern of the two regexes is
followed by a character that the repeated class cannot match, so maximal-run
matching is equivalent to the backtracking semantics — except for the greedy
`<(.+)>\(` group of `FILE_PATTERN`, whose backtracking over candidate `>(`
positions (longest metadata first) is modelled explicitly by `findMeta`.

Character classes follow the ASCII readings of `\d`, `\w`, `\s`; the inputs
in this file are ASCII, where the Python (Unicode) classes agree.
-/

/-- The whitespace class: Python regex `\s` / `str.strip()` (ASCII part). -/
def isSpaceC (c : Char) : Bool :=
  c = ' ' || c = '\t' || c = '\n' || c = '\r' || c = '\x0b' || c = '\x0c'

/-- The digit class: Python regex `\d` (ASCII part). -/
def isDigitC (c : Char) : Bool :=
  c.isDigit

/-- The word class: Python regex `\w` (letters, digits, underscore). -/
def isWordC (c : Char) : Bool :=
  c.isAlphanum || c = '_'

/-- Python `str.rstrip()`: drop trailing whitespace. -/
def rstripList (s : List Char) : List Char :=
  (s.reverse.dropWhile isSpaceC).reverse

/-- Python `str.strip()`: drop leading and trailing whitespace. -/
def pyStrip (s : List Char) : List Char :=
  rstripList (s.dropWhile isSpaceC)

/-- Python `s.split(sep)` for a one-character separator: split on every
occurrence, keeping empty pieces (`"".split(sep) == [""]`). -/
def pySplit (sep : Char) : List Char → List (List Char)
  | [] => [[]]
  | c :: rest =>
    if c = sep then [] :: pySplit sep rest
    else
      match pySplit sep rest with
      | [] => [[c]]
      | x :: xs => (c :: x) :: xs

/-- Python `sep.join(xs)` for a one-character separator. -/
def pyJoin (sep : Char) : List (List Char) → List Char
  | [] => []
  | [x] => x
  | x :: xs => x ++ sep :: pyJoin sep xs

/-- Python `pat in s`: contiguous-substring test. -/
def isInfixB (pat : List Char) : List Char → Bool
  | [] => pat.isEmpty
  | c :: rest => pat.isPrefixOf (c :: rest) || isInfixB pat rest

/-- Python UTF-8 byte length of a line, as counted by the ingest loop. -/
def lineBytes (l : List Char) : Nat :=
  (l.map Char.utf8Size).sum

/-- The record produced by extraction (dataclass `LogEntry` of `app.py`). -/
structure LogEntry where
  timestamp : List Char
  log_entry_type : List Char
  triage_level : List Char
  matched_rule_name : List Char
  read_write : List Char
  matched_regex : List Char
  file_size : List Char
  file_last_modified : List Char
  server : List Char
  full_file_path : List Char
  match_context : List Char
deriving DecidableEq, Repr

/-- Function `extract_server`: first segment of a UNC path `\\SERVER\share\...`,
empty for any other path. -/
def extract_server (path : List Char) : List Char :=
  if path.take 2 = ['\\', '\\'] then
    match pySplit '\\' (path.drop 2) with
    | [] => []
    | p :: _ => p
  else []

/-- Function `parse_file_metadata`: split the `<...>` metadata of a File entry on `|`;
with at least 5 pieces the first two are rule name and R/RW, the last two are
the modification time and the size, and the middle pieces (which may contain
`|`) are rejoined as the matched pattern.  With 2 to 4 pieces only rule name
and R/RW are filled; with fewer, the whole string becomes the rule name. -/
def parse_file_metadata (metadata : List Char) :
    List Char × List Char × List Char × List Char × List Char :=
  let parts := pySplit '|' metadata
  if 5 ≤ parts.length then
    (parts.getD 0 [], parts.getD 1 [],
     pyJoin '|' ((parts.drop 2).dropLast.dropLast),
     parts.getD (parts.length - 2) [], parts.getLastD [])
  else if 2 ≤ parts.length then
    (parts.getD 0 [], parts.getD 1 [], [], [], [])
  else
    (metadata, [], [], [], [])

/-- Regex literal character. -/
def lit (c : Char) : List Char → Option (List Char)
  | x :: r => if x = c then some r else none
  | [] => none

/-- Greedy `p+` for a one-character class `p`: the maximal run, required
nonempty.  Used only where the following pattern character is outside `p`,
which makes the greedy match deterministic. -/
def plusClass (p : Char → Bool) (s : List Char) : Option (List Char × List Char) :=
  let w := s.takeWhile p
  if w.isEmpty then none else some (w, s.dropWhile p)

/-- Greedy `p*` for a one-character class `p`: the maximal run. -/
def starClass (p : Char → Bool) (s : List Char) : List Char × List Char :=
  (s.takeWhile p, s.dropWhile p)

/-- Repetition `p{n}` for a one-character class `p`: exactly `n` matching characters. -/
def repClass (p : Char → Bool) : Nat → List Char → Option (List Char × List Char)
  | 0, s => some ([], s)
  | _ + 1, [] => none
  | n + 1, c :: s =>
    if p c then (repClass p n s).map (fun w => (c :: w.1, w.2)) else none

/-- Fragment `\[[^\]]+\]`: the ignored bracketed host token. -/
def matchBracketAny (s : List Char) : Option (List Char) :=
  (lit '[' s).bind fun r1 =>
  (plusClass (fun c => c != ']') r1).bind fun w =>
  lit ']' w.2

/-- Fragment `(\d{4}-\d{2}-\d{2}\s+\d{2}:\d{2}:\d{2}Z?)`: the captured timestamp. -/
def matchTimestamp (s : List Char) : Option (List Char × List Char) :=
  (repClass isDigitC 4 s).bind fun y =>
  (lit '-' y.2).bind fun r2 =>
  (repClass isDigitC 2 r2).bind fun mo =>
  (lit '-' mo.2).bind fun r4 =>
  (repClass isDigitC 2 r4).bind fun d =>
  (plusClass isSpaceC d.2).bind fun ws =>
  (repClass isDigitC 2 ws.2).bind fun h =>
  (lit ':' h.2).bind fun r8 =>
  (repClass isDigitC 2 r8).bind fun mi =>
  (lit ':' mi.2).bind fun r10 =>
  (repClass isDigitC 2 r10).bind fun se =>
  match se.2 with
  | 'Z' :: r12 =>
      some (y.1 ++ '-' :: mo.1 ++ '-' :: d.1 ++ ws.1 ++
            h.1 ++ ':' :: mi.1 ++ ':' :: se.1 ++ ['Z'], r12)
  | r11 =>
      some (y.1 ++ '-' :: mo.1 ++ '-' :: d.1 ++ ws.1 ++
            h.1 ++ ':' :: mi.1 ++ ':' :: se.1, r11)

/-- Fragment `\[(\w+)\]`: the captured entry-kind token. -/
def matchWordBracket (s : List Char) : Option (List Char × List Char) :=
  (lit '[' s).bind fun r1 =>
  (plusClass isWordC r1).bind fun w =>
  (lit ']' w.2).map fun r3 => (w.1, r3)

/-- Fragment `\{(\w+)\}`: the captured triage-level token. -/
def matchBraceWord (s : List Char) : Option (List Char × List Char) :=
  (lit '{' s).bind fun r1 =>
  (plusClass isWordC r1).bind fun w =>
  (lit '}' w.2).map fun r3 => (w.1, r3)

/-- The prefix shared by the two grammars:
`^\[[^\]]+\]\s+(timestamp)\s+\[(\w+)\]\s+\{(\w+)\}`.
Returns (timestamp, entry kind, triage level, rest of the line). -/
def matchLead (s : List Char) :
    Option (List Char × List Char × List Char × List Char) :=
  (matchBracketAny s).bind fun r1 =>
  (plusClass isSpaceC r1).bind fun p2 =>
  (matchTimestamp p2.2).bind fun ts =>
  (plusClass isSpaceC ts.2).bind fun p4 =>
  (matchWordBracket p4.2).bind fun kind =>
  (plusClass isSpaceC kind.2).bind fun p6 =>
  (matchBraceWord p6.2).map fun tr => (ts.1, kind.1, tr.1, tr.2)

/-- All ways to write `s = before ++ '>' :: '(' :: after`, longest `before`
first — the order in which the greedy `(.+)>\(` of `FILE_PATTERN` tries its
candidate metadata captures. -/
def metaSplits : List Char → List (List Char × List Char)
  | [] => []
  | c :: rest =>
    ((metaSplits rest).map fun pr => (c :: pr.1, pr.2)) ++
      (match c, rest with
       | '>', '(' :: after => [(([] : List Char), after)]
       | _, _ => [])

/-- Fragment `([^)]+)\)\s*(.*)$`: the file path and the trailing context after a
candidate `>(` position. -/
def fileTail (after : List Char) : Option (List Char × List Char) :=
  (plusClass (fun c => c != ')') after).bind fun w =>
  (lit ')' w.2).map fun r2 => (w.1, (starClass isSpaceC r2).2)

/-- Fragment `(.+)>\(([^)]+)\)\s*(.*)$`: backtracking choice of the `>(` delimiter,
longest (greedy) metadata candidate first, keeping the first candidate whose
remainder parses.  Returns (metadata, path, context). -/
def findMeta (s : List Char) : Option (List Char × List Char × List Char) :=
  ((metaSplits s).filter fun pr => !pr.1.isEmpty).findSome? fun pr =>
    (fileTail pr.2).map fun pc => (pr.1, pc.1, pc.2)

/-- Matcher for `FILE_PATTERN`: returns (timestamp, kind, triage, metadata, path, context). -/
def matchFile (s : List Char) :
    Option (List Char × List Char × List Char × List Char × List Char × List Char) :=
  (matchLead s).bind fun (ts, kind, tr, r) =>
  (lit '<' r).bind fun r8 =>
  (findMeta r8).map fun (m, p, c) => (ts, kind, tr, m, p, c)

/-- Matcher for `SHARE_PATTERN`, after the shared prefix: `<([^>]+)>\(([^)]+)\)\s*(.*)$`.
Returns (timestamp, kind, triage, share path, read-write mode, description). -/
def matchShare (s : List Char) :
    Option (List Char × List Char × List Char × List Char × List Char × List Char) :=
  (matchLead s).bind fun (ts, kind, tr, r) =>
  (lit '<' r).bind fun r8 =>
  (plusClass (fun c => c != '>') r8).bind fun sp =>
  (lit '>' sp.2).bind fun r10 =>
  (lit '(' r10).bind fun r11 =>
  (plusClass (fun c => c != ')') r11).bind fun rw =>
  (lit ')' rw.2).map fun r13 =>
    (ts, kind, tr, sp.1, rw.1, (starClass isSpaceC r13).2)

/-- The status-update substrings skipped by `parse_log_line`. -/
def skipPatterns : List (List Char) :=
  ["ShareFinder Tasks".toList, "TreeWalker Tasks".toList,
   "FileScanner Tasks".toList, "RAM in use".toList, "Insufficient".toList,
   "Max ShareFinder".toList, "Max TreeWalker".toList,
   "Max FileScanner".toList, "Been Snafflin".toList, "Status Update".toList]

/-- Function `parse_log_line`: strip the line, drop blank / `[Info]` / status lines,
then apply the Share grammar when the line contains `[Share]`, otherwise the
File grammar when it contains `[File]`; anything else yields no record. -/
def parse_log_line (raw : List Char) : Option LogEntry :=
  let line := pyStrip raw
  if line.isEmpty then none
  else if isInfixB ("[Info]".toList) line then none
  else if skipPatterns.any (fun p => isInfixB p line) then none
  else if isInfixB ("[Share]".toList) line then
    match matchShare line with
    | some (ts, kind, triage, spath, rw, desc) =>
        some ⟨ts, kind, triage, [], rw, [], [], [],
              extract_server spath, spath, pyStrip desc⟩
    | none => none
  else if isInfixB ("[File]".toList) line then
    match matchFile line with
    | some (ts, kind, triage, meta, path, ctx) =>
        match parse_file_metadata meta with
        | (rn, rw, pat, fs, fdt) =>
          some ⟨ts, kind, triage, rn, rw, pat, fs, fdt,
                extract_server path, path, pyStrip ctx⟩
    | none => none
  else none

/-- The triage filter of `get_entries` / `export_csv`: an entry passes when
the filter list is empty or contains the triage level of the entry. -/
def entryMatches (flt : List (List Char)) (e : LogEntry) : Bool :=
  flt.isEmpty || flt.contains e.triage_level

/-- The display truncation applied by `get_entries`: a match context longer
than 200 characters is cut to 200 characters plus `...`. -/
def truncEntry (e : LogEntry) : LogEntry :=
  if 200 < e.match_context.length then
    { e with match_context := e.match_context.take 200 ++ ['.', '.', '.'] }
  else e

/-- The value returned by `get_entries`. -/
structure QueryResult where
  entries : List LogEntry
  page : Nat
  per_page : Nat
  total : Nat
  total_pages : Nat
deriving DecidableEq, Repr

/-- The scan loop of `get_entries`: walk the store in arrival order, count
every record passing the filter, and append (truncated for display) exactly
those matches seen after the first `skip` ones while fewer than `per_page`
have been collected. -/
def getEntriesLoop (flt : List (List Char)) (skip per_page : Nat) :
    List LogEntry → Nat → List LogEntry → Nat × List LogEntry
  | [], total, acc => (total, acc)
  | e :: rest, total, acc =>
    if entryMatches flt e then
      if skip < total + 1 ∧ acc.length < per_page then
        getEntriesLoop flt skip per_page rest (total + 1) (acc ++ [truncEntry e])
      else
        getEntriesLoop flt skip per_page rest (total + 1) acc
    else
      getEntriesLoop flt skip per_page rest total acc

/-- Function `get_entries`: paginated, filtered view of the store. -/
def get_entries (store : List LogEntry) (flt : List (List Char))
    (page per_page : Nat) : QueryResult :=
  let skip := (page - 1) * per_page
  let r := getEntriesLoop flt skip per_page store 0 []
  { entries := r.2, page := page, per_page := per_page, total := r.1,
    total_pages := if 0 < r.1 then (r.1 + per_page - 1) / per_page else 1 }

/-- The fixed 10-column header row written by `export_csv`. -/
def csvHeader : List (List Char) :=
  ["Timestamp".toList, "Log Entry Type".toList, "Triage Level".toList,
   "Matched Rule Name".toList, "R/RW".toList, "File Size".toList,
   "File Last Modified".toList, "Server".toList, "Full File Path".toList,
   "Match Context".toList]

/-- The field values handed to `csv.writer.writerow` for one record —
note the untruncated `match_context`. -/
def csvFields (e : LogEntry) : List (List Char) :=
  [e.timestamp, e.log_entry_type, e.triage_level, e.matched_rule_name,
   e.read_write, e.file_size, e.file_last_modified, e.server,
   e.full_file_path, e.match_context]

/-- Function `export_csv`: the stream of rows (as field lists, before CSV quoting) —
the header once, then one row per record passing the filter, in store
arrival order, with no pagination and no truncation. -/
def export_rows (store : List LogEntry) (flt : List (List Char)) :
    List (List (List Char)) :=
  csvHeader :: (store.filter (entryMatches flt)).map csvFields

/-- One `data:` progress event of the ingest stream. -/
structure SSEProgress where
  progress : Int
  entries : Nat
  lines : Nat
deriving DecidableEq, Repr

/-- The state threaded through `parse_uploaded_file.generate` and its
outcome: emitted progress events, lines processed, records extracted and the
append-only store. -/
structure LoopOut where
  events : List SSEProgress
  lines_processed : Nat
  total_entries : Nat
  store : List LogEntry
deriving DecidableEq, Repr

/-- The line loop of `parse_uploaded_file.generate`: per line, count it, add
its UTF-8 bytes, parse it (appending any record to the store), compute
`int(bytes_read / file_size * 100)` (modelled as the exact floor) and emit a
progress event exactly when that value exceeds the last emitted one. -/
def ingestLoop (size : Nat) :
    List (List Char) → Nat → Int → Nat → Nat → List LogEntry → LoopOut
  | [], _, _, lines, tot, store => ⟨[], lines, tot, store⟩
  | l :: ls, bytes, lastp, lines, tot, store =>
    let bytes2 := bytes + lineBytes l
    let tot2 :=
      match parse_log_line l with
      | some _ => tot + 1
      | none => tot
    let store2 :=
      match parse_log_line l with
      | some e => store ++ [e]
      | none => store
    let p : Int := ((bytes2 * 100 / size : Nat) : Int)
    if lastp < p then
      let out := ingestLoop size ls bytes2 p (lines + 1) tot2 store2
      { out with events := ⟨p, tot2, lines + 1⟩ :: out.events }
    else
      ingestLoop size ls bytes2 lastp (lines + 1) tot2 store2

/-- The outcome of one run of `parse_uploaded_file.generate`.
`removed_upload` records the `os.remove(UPLOAD_FILE)` the generator itself
performs after consuming the input, before yielding the done event. -/
structure IngestResult where
  events : List SSEProgress
  lines_processed : Nat
  total_entries : Nat
  store : List LogEntry
  removed_upload : Bool
deriving DecidableEq, Repr

/-- Function `parse_uploaded_file.generate` on a source of `ls` lines whose declared
byte length is `size`: run the line loop from zero bytes read and an initial
last progress of -1, then delete the source file and report the totals. -/
def ingest (size : Nat) (ls : List (List Char)) : IngestResult :=
  let out := ingestLoop size ls 0 (-1) 0 0 []
  { events := out.events, lines_processed := out.lines_processed,
    total_entries := out.total_entries, store := out.store,
    removed_upload := true }

/-- Scenario A input line of the specification. -/
def scenarioALine : List Char :=
  ("[HOST1] 2024-01-15 10:30:00Z [File] {Red}<MyRule|RW|some\\|pattern|1024|2024-01-10 09:00:00>(\\\\SERVER1\\share\\file.txt) sensitive match").toList
/-- The record Scenario A is specified to produce. -/
def scenarioAEntry : LogEntry :=
  ⟨"2024-01-15 10:30:00Z".toList, "File".toList, "Red".toList,
   "MyRule".toList, "RW".toList, "some\\|pattern".toList, "1024".toList,
   "2024-01-10 09:00:00".toList, "SERVER1".toList,
   "\\\\SERVER1\\share\\file.txt".toList, "sensitive match".toList⟩
/-- An entry whose match context has 250 characters. -/
def e250 : LogEntry :=
  ⟨[], [], [], [], [], [], [], [], [], [], List.replicate 250 'a'⟩
/-- C3 counterexample line: the `[Share]` marker sits in the trailing
description while the structural entry-kind token is `Foo`. -/
def c3Line : List Char :=
  "[HOST1] 2024-01-15 10:30:00Z [Foo] {Red}<\\\\S1\\share>(RW) x [Share]".toList
/-- A structurally well-formed File line whose braced triage token is `t`:
`[host] 2024-01-15 10:30:00Z [File] {t}rest`. -/
def c10LineA (host t rest : List Char) : List Char :=
  '[' :: (host ++ ']' ::
    (" 2024-01-15 10:30:00Z [File] \x7b".toList ++ (t ++ '}' :: rest)))
/-- A line whose bracketed entry-kind token is `k`:
`[host] 2024-01-15 10:30:00Z [k]rest`. -/
def c10LineB (host k rest : List Char) : List Char :=
  '[' :: (host ++ ']' ::
    (" 2024-01-15 10:30:00Z ".toList ++ ('[' :: (k ++ ']' :: rest))))

theorem pySplit_ne_nil (sep : Char) (s : List Char) : pySplit sep s ≠ [] := by
  induction s with
  | nil => simp [pySplit]
  | cons c rest ih =>
    simp only [pySplit]
    split
    · simp
    · cases h : pySplit sep rest with
      | nil => simp
      | cons x xs => simp

theorem pyJoin_pySplit (sep : Char) (s : List Char) :
    pyJoin sep (pySplit sep s) = s := by
  induction s with
  | nil => simp [pySplit, pyJoin]
  | cons c rest ih =>
    simp only [pySplit]
    split
    · rename_i hc
      cases h : pySplit sep rest with
      | nil => exact absurd h (pySplit_ne_nil sep rest)
      | cons x xs =>
        rw [h] at ih
        simp [pyJoin, ← ih, hc]
    · cases h : pySplit sep rest with
      | nil => exact absurd h (pySplit_ne_nil sep rest)
      | cons x xs =>
        rw [h] at ih
        cases xs with
        | nil => simp [pyJoin] at ih ⊢; exact ih
        | cons y ys => simp [pyJoin] at ih ⊢; rw [ih]

theorem five_decomp {α : Type} (l : List α) (h : 5 ≤ l.length) :
    ∃ a b d e mid, l = a :: b :: (mid ++ [d, e]) ∧ mid ≠ [] := by
  match l, h with
  | a :: b :: r, h =>
    have hr : 3 ≤ r.length := by simp at h; omega
    match hrev : r.reverse with
    | [] => simp [← List.length_reverse r, hrev] at hr
    | [e] =>
      have : r.length = 1 := by rw [← List.length_reverse r, hrev]; rfl
      omega
    | e :: d :: m =>
      refine ⟨a, b, d, e, m.reverse, ?_, ?_⟩
      · have : r = (e :: d :: m).reverse := by rw [← hrev, List.reverse_reverse]
        simp [this]
      · have hm : 1 ≤ m.length := by
          have : r.length = m.length + 2 := by
            rw [← List.length_reverse r, hrev]; simp
          omega
        intro hc
        rw [List.reverse_eq_nil_iff] at hc
        simp [hc] at hm

theorem pyJoin_append_two (sep : Char) (mid : List (List Char)) (hm : mid ≠ [])
    (d e : List Char) :
    pyJoin sep (mid ++ [d, e]) = pyJoin sep mid ++ sep :: d ++ sep :: e := by
  induction mid with
  | nil => contradiction
  | cons x xs ih =>
    cases xs with
    | nil => simp [pyJoin]
    | cons y ys =>
      have := ih (by simp)
      simp only [List.cons_append, List.append_eq, pyJoin] at this ⊢
      rw [this]
      simp [List.append_assoc]

theorem parse_file_metadata_of_decomp (m a b d e : List Char)
    (mid : List (List Char)) (hdec : pySplit '|' m = a :: b :: (mid ++ [d, e]))
    (hmid : mid ≠ []) :
    parse_file_metadata m = (a, b, pyJoin '|' mid, d, e) := by
  have hmidlen : 1 ≤ mid.length := by
    cases mid with
    | nil => contradiction
    | cons _ _ => simp
  have h5 : 5 ≤ (a :: b :: (mid ++ [d, e])).length := by simp; omega
  have e3 : ((a :: b :: (mid ++ [d, e])).drop 2).dropLast.dropLast = mid := by
    have h1 : (a :: b :: (mid ++ [d, e])).drop 2 = mid ++ [d, e] := rfl
    have h2 : mid ++ [d, e] = (mid ++ [d]) ++ [e] := by simp
    rw [h1, h2, List.dropLast_concat, List.dropLast_concat]
  have e4 : (a :: b :: (mid ++ [d, e])).getD
      ((a :: b :: (mid ++ [d, e])).length - 2) [] = d := by
    have h3 : (a :: b :: (mid ++ [d, e])).length - 2 = mid.length + 2 := by
      simp
    rw [h3]
    simp only [List.getD, List.get?_eq_getElem?, List.getElem?_cons_succ]
    rw [List.getElem?_append_right (by omega)]
    simp
  have e5 : (a :: b :: (mid ++ [d, e])).getLastD [] = e := by
    have h4 : a :: b :: (mid ++ [d, e]) = (a :: b :: (mid ++ [d])) ++ [e] := by
      simp
    rw [h4, List.getLastD_eq_getLast?, List.getLast?_concat]
    rfl
  simp only [parse_file_metadata, hdec, if_pos h5, e3, e4, e5]
  rfl

theorem pyJoin_cons_of_ne_nil (sep : Char) (x : List Char)
    (l : List (List Char)) (h : l ≠ []) :
    pyJoin sep (x :: l) = x ++ sep :: pyJoin sep l := by
  cases l with
  | nil => contradiction
  | cons y ys => rfl



set_option maxRecDepth 4000 in
theorem scenarioA_eval : parse_log_line scenarioALine = some scenarioAEntry := by
  decide

/-- C1: splitting the metadata of a File entry on the pipe yields, with at
least 5 tokens, the rule name and read-write mode from the first two tokens,
the last-modified text from the last token, the size from the second-to-last,
and the matched pattern as the middle tokens rejoined with the pipe; with 2
to 4 tokens only rule name and read-write are filled; with fewer than 2 the
whole metadata string becomes the rule name.  Scenario A parses to exactly
the record the specification lists. -/
theorem c1_file_metadata_fields (m : List Char) :
    (5 ≤ (pySplit '|' m).length →
      ∃ a b d e mid, pySplit '|' m = a :: b :: (mid ++ [d, e]) ∧
        parse_file_metadata m = (a, b, pyJoin '|' mid, d, e))
    ∧ (2 ≤ (pySplit '|' m).length → (pySplit '|' m).length < 5 →
      ∃ a b rest, pySplit '|' m = a :: b :: rest ∧
        parse_file_metadata m = (a, b, [], [], []))
    ∧ ((pySplit '|' m).length < 2 → parse_file_metadata m = (m, [], [], [], []))
    ∧ parse_log_line scenarioALine = some scenarioAEntry := by
  refine ⟨?_, ?_, ?_, scenarioA_eval⟩
  · intro h5
    obtain ⟨a, b, d, e, mid, hdec, hmid⟩ := five_decomp _ h5
    exact ⟨a, b, d, e, mid, hdec,
      parse_file_metadata_of_decomp m a b d e mid hdec hmid⟩
  · intro h2 h5
    match hdec : pySplit '|' m with
    | [] => exact absurd hdec (pySplit_ne_nil '|' m)
    | [a] => rw [hdec] at h2; simp at h2
    | a :: b :: rest =>
      refine ⟨a, b, rest, rfl, ?_⟩
      rw [hdec] at h5
      simp only [parse_file_metadata, hdec]
      rw [if_neg (by omega), if_pos (by simp)]
      rfl
  · intro h2
    match hdec : pySplit '|' m with
    | [] => exact absurd hdec (pySplit_ne_nil '|' m)
    | [a] =>
      simp only [parse_file_metadata, hdec]
      rw [if_neg (by simp), if_neg (by simp)]
    | a :: b :: rest => rw [hdec] at h2; simp at h2; omega

/-- Witness for C1 at a concrete 6-token metadata string. -/
theorem c1_file_metadata_fields_witness :
    (5 ≤ (pySplit '|' ("A|RW|x|y|9|t".toList)).length) ∧
    ∃ a b d e mid,
      pySplit '|' ("A|RW|x|y|9|t".toList) = a :: b :: (mid ++ [d, e]) ∧
      parse_file_metadata ("A|RW|x|y|9|t".toList) = (a, b, pyJoin '|' mid, d, e) :=
  ⟨by decide, (c1_file_metadata_fields ("A|RW|x|y|9|t".toList)).1 (by decide)⟩

/-- C4: for a File line accepted by the full grammar whose metadata splits
into at least 5 tokens, rejoining the five extracted metadata sub-fields
with the pipe reconstructs the original metadata substring exactly. -/
theorem c4_metadata_roundtrip (line ts kind triage meta path ctx : List Char)
    (hm : matchFile (pyStrip line) = some (ts, kind, triage, meta, path, ctx))
    (h5 : 5 ≤ (pySplit '|' meta).length) :
    pyJoin '|' [(parse_file_metadata meta).1, (parse_file_metadata meta).2.1,
      (parse_file_metadata meta).2.2.1, (parse_file_metadata meta).2.2.2.1,
      (parse_file_metadata meta).2.2.2.2] = meta := by
  obtain ⟨a, b, d, e, mid, hdec, hmid⟩ := five_decomp _ h5
  rw [parse_file_metadata_of_decomp meta a b d e mid hdec hmid]
  have hrt := pyJoin_pySplit '|' meta
  rw [hdec] at hrt
  rw [pyJoin_cons_of_ne_nil '|' a (b :: (mid ++ [d, e])) (by simp),
      pyJoin_cons_of_ne_nil '|' b (mid ++ [d, e]) (by simp),
      pyJoin_append_two '|' mid hmid d e] at hrt
  rw [← hrt]
  simp [pyJoin, List.append_assoc]

set_option maxRecDepth 10000 in
/-- Witness for C4 at the Scenario A line. -/
theorem c4_metadata_roundtrip_witness :
    matchFile (pyStrip scenarioALine) =
      some ("2024-01-15 10:30:00Z".toList, "File".toList, "Red".toList,
            "MyRule|RW|some\\|pattern|1024|2024-01-10 09:00:00".toList,
            "\\\\SERVER1\\share\\file.txt".toList, "sensitive match".toList) ∧
    5 ≤ (pySplit '|' ("MyRule|RW|some\\|pattern|1024|2024-01-10 09:00:00".toList)).length ∧
    pyJoin '|'
      [(parse_file_metadata ("MyRule|RW|some\\|pattern|1024|2024-01-10 09:00:00".toList)).1,
       (parse_file_metadata ("MyRule|RW|some\\|pattern|1024|2024-01-10 09:00:00".toList)).2.1,
       (parse_file_metadata ("MyRule|RW|some\\|pattern|1024|2024-01-10 09:00:00".toList)).2.2.1,
       (parse_file_metadata ("MyRule|RW|some\\|pattern|1024|2024-01-10 09:00:00".toList)).2.2.2.1,
       (parse_file_metadata ("MyRule|RW|some\\|pattern|1024|2024-01-10 09:00:00".toList)).2.2.2.2] =
      "MyRule|RW|some\\|pattern|1024|2024-01-10 09:00:00".toList :=
  ⟨by rfl, by decide,
   c4_metadata_roundtrip scenarioALine ("2024-01-15 10:30:00Z".toList)
     ("File".toList) ("Red".toList)
     ("MyRule|RW|some\\|pattern|1024|2024-01-10 09:00:00".toList)
     ("\\\\SERVER1\\share\\file.txt".toList) ("sensitive match".toList)
     (by rfl) (by decide)⟩

/-- C7: the server field is a deterministic function of the path — for a
path starting with two backslashes it is the first segment after stripping
the leading pair and splitting on the backslash, and for every other path it
is empty. -/
theorem c7_extract_server (path : List Char) :
    (path.take 2 = ['\\', '\\'] →
      ∃ seg rest, pySplit '\\' (path.drop 2) = seg :: rest ∧
        extract_server path = seg)
    ∧ (path.take 2 ≠ ['\\', '\\'] → extract_server path = []) := by
  constructor
  · intro h
    match hsp : pySplit '\\' (path.drop 2) with
    | [] => exact absurd hsp (pySplit_ne_nil _ _)
    | seg :: rest =>
      exact ⟨seg, rest, rfl, by simp [extract_server, if_pos h, hsp]⟩
  · intro h
    simp [extract_server, if_neg h]

/-- Witness for C7 at a UNC path and at a relative path. -/
theorem c7_extract_server_witness :
    (("\\\\SERVER1\\share\\file.txt".toList).take 2 = ['\\', '\\'] ∧
      ∃ seg rest,
        pySplit '\\' ("\\\\SERVER1\\share\\file.txt".toList.drop 2) = seg :: rest ∧
        extract_server ("\\\\SERVER1\\share\\file.txt".toList) = seg) ∧
    (("a.txt".toList).take 2 ≠ ['\\', '\\'] ∧
      extract_server ("a.txt".toList) = []) :=
  ⟨⟨by decide, (c7_extract_server _).1 (by decide)⟩,
   ⟨by decide, (c7_extract_server _).2 (by decide)⟩⟩

theorem getEntriesLoop_eq (flt : List (List Char)) (skip pp : Nat)
    (store : List LogEntry) :
    ∀ (tot : Nat) (acc : List LogEntry), acc.length ≤ pp →
      getEntriesLoop flt skip pp store tot acc =
        (tot + (store.filter (entryMatches flt)).length,
         acc ++ (((store.filter (entryMatches flt)).map truncEntry).drop
                   (skip - tot)).take (pp - acc.length)) := by
  induction store with
  | nil => intro tot acc hacc; simp [getEntriesLoop]
  | cons e rest ih =>
    intro tot acc hacc
    simp only [getEntriesLoop]
    by_cases hm : entryMatches flt e
    · rw [if_pos hm]
      simp only [List.filter_cons, hm, if_pos, List.length_cons, List.map_cons]
      by_cases hcond : skip < tot + 1 ∧ acc.length < pp
      · rw [if_pos hcond]
        rw [ih (tot + 1) (acc ++ [truncEntry e]) (by simp; omega)]
        have hskip : skip - tot = 0 := by omega
        have hskip2 : skip - (tot + 1) = 0 := by omega
        have hpp : pp - acc.length = (pp - (acc.length + 1)) + 1 := by omega
        rw [hskip, hskip2, hpp]
        simp [List.take_succ_cons, List.append_assoc]
        omega
      · rw [if_neg hcond]
        rw [ih (tot + 1) acc hacc]
        rcases Nat.lt_or_ge tot.succ skip.succ with hlt | hge
        · have hs : skip - tot = (skip - (tot + 1)) + 1 := by omega
          rw [hs]
          simp [List.drop_succ_cons]
          omega
        · have hacc2 : acc.length = pp := by omega
          have h0 : pp - acc.length = 0 := by omega
          rw [h0]
          simp
          omega
    · rw [if_neg hm]
      rw [ih tot acc hacc]
      simp [List.filter_cons, hm]

theorem get_entries_spec (store : List LogEntry) (flt : List (List Char))
    (page pp : Nat) :
    get_entries store flt page pp =
      { entries := (((store.filter (entryMatches flt)).map truncEntry).drop
                     ((page - 1) * pp)).take pp,
        page := page, per_page := pp,
        total := (store.filter (entryMatches flt)).length,
        total_pages := if 0 < (store.filter (entryMatches flt)).length
          then ((store.filter (entryMatches flt)).length + pp - 1) / pp
          else 1 } := by
  have h := getEntriesLoop_eq flt ((page - 1) * pp) pp store 0 [] (by simp)
  simp only [get_entries, h]
  simp

theorem flatten_chunks {α : Type} (pp : Nat) :
    ∀ (k : Nat) (l : List α), l.length ≤ k * pp →
      ((List.range k).map (fun i => (l.drop (i * pp)).take pp)).flatten = l := by
  intro k
  induction k with
  | zero =>
    intro l h
    simp at h
    simp [h]
  | succ k ih =>
    intro l h
    rw [List.range_succ_eq_map]
    simp only [List.map_cons, List.map_map, List.flatten_cons, Nat.zero_mul,
      List.drop_zero]
    have hmap : (List.range k).map
        ((fun i => (l.drop (i * pp)).take pp) ∘ Nat.succ) =
        (List.range k).map (fun i => ((l.drop pp).drop (i * pp)).take pp) := by
      apply List.map_congr_left
      intro i _
      simp only [Function.comp]
      rw [List.drop_drop]
      have hiw : pp + i * pp = Nat.succ i * pp := by
        rw [Nat.succ_mul]; omega
      rw [hiw]
    rw [hmap, ih (l.drop pp) (by simp [Nat.succ_mul] at h ⊢; omega)]
    exact List.take_append_drop pp l

theorem le_ceil_mul (len pp : Nat) (hpp : 0 < pp) (hlen : 0 < len) :
    len ≤ ((len + pp - 1) / pp) * pp := by
  have h1 : len + pp - 1 = (len - 1) + pp := by omega
  rw [h1, Nat.add_div_right _ hpp, Nat.succ_mul]
  have h2 := Nat.div_add_mod (len - 1) pp
  have h3 : (len - 1) % pp < pp := Nat.mod_lt _ hpp
  have h4 : pp * ((len - 1) / pp) = (len - 1) / pp * pp := Nat.mul_comm _ _
  omega

/-- C5 (amended): concatenating the entries of query pages 1 through
total_pages at a fixed perPage of at least 1 reproduces, in arrival order
with no duplicates or omissions, the filtered subsequence of the store with
the display truncation of matchContext applied to each record; each page
holds exactly the matches whose zero-based rank lies in
[(page-1)*perPage, page*perPage); when no stored matchContext exceeds 200
characters the concatenation equals the stored filtered subsequence
verbatim. -/
theorem c5_pagination_amended (store : List LogEntry) (flt : List (List Char))
    (pp : Nat) (hpp : 1 ≤ pp) :
    (((List.range (get_entries store flt 1 pp).total_pages).map
        (fun i => (get_entries store flt (i + 1) pp).entries)).flatten =
      (store.filter (entryMatches flt)).map truncEntry)
    ∧ (∀ page, (get_entries store flt page pp).entries =
        (((store.filter (entryMatches flt)).map truncEntry).drop
          ((page - 1) * pp)).take pp)
    ∧ ((∀ e ∈ store, e.match_context.length ≤ 200) →
        ((List.range (get_entries store flt 1 pp).total_pages).map
          (fun i => (get_entries store flt (i + 1) pp).entries)).flatten =
        store.filter (entryMatches flt)) := by
  have hpage : ∀ page, (get_entries store flt page pp).entries =
      (((store.filter (entryMatches flt)).map truncEntry).drop
        ((page - 1) * pp)).take pp := by
    intro page
    rw [get_entries_spec]
  have htp : (get_entries store flt 1 pp).total_pages =
      if 0 < (store.filter (entryMatches flt)).length
      then ((store.filter (entryMatches flt)).length + pp - 1) / pp
      else 1 := by
    rw [get_entries_spec]
  have hmain : ((List.range (get_entries store flt 1 pp).total_pages).map
      (fun i => (get_entries store flt (i + 1) pp).entries)).flatten =
      (store.filter (entryMatches flt)).map truncEntry := by
    have hmap : (List.range (get_entries store flt 1 pp).total_pages).map
        (fun i => (get_entries store flt (i + 1) pp).entries) =
        (List.range (get_entries store flt 1 pp).total_pages).map
          (fun i => (((store.filter (entryMatches flt)).map truncEntry).drop
            (i * pp)).take pp) := by
      apply List.map_congr_left
      intro i _
      rw [hpage (i + 1)]
      simp
    rw [hmap]
    apply flatten_chunks
    rw [htp]
    by_cases h0 : 0 < (store.filter (entryMatches flt)).length
    · rw [if_pos h0]
      simp only [List.length_map]
      exact le_ceil_mul _ pp (by omega) h0
    · rw [if_neg h0]
      simp only [List.length_map]
      omega
  refine ⟨hmain, hpage, fun hall => ?_⟩
  rw [hmain]
  have : (store.filter (entryMatches flt)).map truncEntry =
      (store.filter (entryMatches flt)).map id := by
    apply List.map_congr_left
    intro e he
    have hle : e.match_context.length ≤ 200 :=
      hall e (List.mem_of_mem_filter he)
    simp [truncEntry, Nat.not_lt.mpr hle]
  rw [this, List.map_id]


set_option maxRecDepth 40000 in
/-- Counterexample to C5 as stated: with one stored record whose
matchContext has 250 characters, the concatenation of all query pages is not
the stored filtered subsequence (the returned record is display-truncated). -/
theorem c5_pagination_counterexample :
    (get_entries [e250] [] 1 1).total_pages = 1 ∧
    ((List.range 1).map (fun i => (get_entries [e250] [] (i + 1) 1).entries)).flatten ≠
      [e250].filter (entryMatches []) := by
  refine ⟨by rfl, ?_⟩
  decide

/-- Witness for the amended C5 on a one-record store. -/
theorem c5_pagination_amended_witness :
    (1 ≤ 1) ∧
    ((List.range (get_entries [e250] [] 1 1).total_pages).map
      (fun i => (get_entries [e250] [] (i + 1) 1).entries)).flatten =
      ([e250].filter (entryMatches [])).map truncEntry :=
  ⟨by decide, (c5_pagination_amended [e250] [] 1 (by decide)).1⟩

/-- C6: a stored record whose matchContext exceeds 200 characters is
returned by query with matchContext replaced by its first 200 characters
plus an ellipsis marker, while the export stream emits the same record with
its full, untruncated matchContext. -/
theorem c6_truncation_query_export (store : List LogEntry)
    (flt : List (List Char)) (pp i : Nat) (e : LogEntry) (hpp : 1 ≤ pp)
    (he : (store.filter (entryMatches flt))[i]? = some e)
    (hlen : 200 < e.match_context.length) :
    (get_entries store flt (i / pp + 1) pp).entries[i % pp]? =
      some { e with match_context := e.match_context.take 200 ++ ['.', '.', '.'] }
    ∧ (export_rows store flt)[i + 1]? = some (csvFields e)
    ∧ (csvFields e)[9]? = some e.match_context := by
  refine ⟨?_, ?_, by simp [csvFields]⟩
  · rw [get_entries_spec]
    have hmod : i % pp < pp := Nat.mod_lt _ (by omega)
    simp only [List.getElem?_take_of_lt hmod, List.getElem?_drop]
    have hidx : (i / pp + 1 - 1) * pp + i % pp = i := by
      have := Nat.div_add_mod i pp
      have h4 : (i / pp + 1 - 1) * pp = pp * (i / pp) := by
        simp [Nat.mul_comm]
      omega
    rw [hidx]
    simp only [List.getElem?_map, he, Option.map_some']
    simp [truncEntry, hlen]
  · simp only [export_rows, List.getElem?_cons_succ, List.getElem?_map, he,
      Option.map_some']

set_option maxRecDepth 40000 in
/-- Witness for C6 at a record with a 250-character matchContext. -/
theorem c6_truncation_query_export_witness :
    (1 ≤ 1) ∧ (([e250].filter (entryMatches []))[0]? = some e250) ∧
    (200 < e250.match_context.length) ∧
    ((get_entries [e250] [] (0 / 1 + 1) 1).entries[0 % 1]? =
      some { e250 with
             match_context := e250.match_context.take 200 ++ ['.', '.', '.'] }
    ∧ (export_rows [e250] [])[0 + 1]? = some (csvFields e250)
    ∧ (csvFields e250)[9]? = some e250.match_context) :=
  ⟨by decide, by decide, by decide,
   c6_truncation_query_export [e250] [] 1 0 e250 (by decide) (by decide)
     (by decide)⟩

theorem getLast?_cons_some {α : Type} (a x : α) (l : List α)
    (h : l.getLast? = some x) : (a :: l).getLast? = some x := by
  cases l with
  | nil => simp at h
  | cons b t => rw [List.getLast?_cons_cons]; exact h

theorem loopOut_events_update (out : LoopOut) (E : List SSEProgress) :
    ({ out with events := E } : LoopOut).events = E := rfl

theorem loopOut_rest_update (out : LoopOut) (E : List SSEProgress) :
    ({ out with events := E } : LoopOut).lines_processed = out.lines_processed
    ∧ ({ out with events := E } : LoopOut).total_entries = out.total_entries
    ∧ ({ out with events := E } : LoopOut).store = out.store :=
  ⟨rfl, rfl, rfl⟩

theorem ingestLoop_cons (size : Nat) (l : List Char) (ls : List (List Char))
    (bytes : Nat) (lastp : Int) (lines tot : Nat) (store : List LogEntry) :
    ingestLoop size (l :: ls) bytes lastp lines tot store =
      if lastp < (((bytes + lineBytes l) * 100 / size : Nat) : Int) then
        { ingestLoop size ls (bytes + lineBytes l)
            (((bytes + lineBytes l) * 100 / size : Nat) : Int) (lines + 1)
            (match parse_log_line l with | some _ => tot + 1 | none => tot)
            (match parse_log_line l with
             | some e => store ++ [e] | none => store) with
          events :=
            ⟨(((bytes + lineBytes l) * 100 / size : Nat) : Int),
             (match parse_log_line l with | some _ => tot + 1 | none => tot),
             lines + 1⟩ ::
            (ingestLoop size ls (bytes + lineBytes l)
              (((bytes + lineBytes l) * 100 / size : Nat) : Int) (lines + 1)
              (match parse_log_line l with | some _ => tot + 1 | none => tot)
              (match parse_log_line l with
               | some e => store ++ [e] | none => store)).events }
      else
        ingestLoop size ls (bytes + lineBytes l) lastp (lines + 1)
          (match parse_log_line l with | some _ => tot + 1 | none => tot)
          (match parse_log_line l with
           | some e => store ++ [e] | none => store) := rfl

theorem ingestLoop_mono (size : Nat) :
    ∀ (ls : List (List Char)) (bytes : Nat) (lastp : Int) (lines tot : Nat)
      (store : List LogEntry),
      List.Chain' (fun a b => a.progress < b.progress)
        (ingestLoop size ls bytes lastp lines tot store).events
      ∧ ∀ ev ∈ (ingestLoop size ls bytes lastp lines tot store).events,
          lastp < ev.progress := by
  intro ls
  induction ls with
  | nil => intro bytes lastp lines tot store; simp [ingestLoop]
  | cons l ls ih =>
    intro bytes lastp lines tot store
    rw [ingestLoop_cons]
    by_cases hp : lastp < (((bytes + lineBytes l) * 100 / size : Nat) : Int)
    · rw [if_pos hp]
      rw [loopOut_events_update]
      obtain ⟨ih1, ih2⟩ := ih (bytes + lineBytes l)
        (((bytes + lineBytes l) * 100 / size : Nat) : Int) (lines + 1)
        (match parse_log_line l with | some _ => tot + 1 | none => tot)
        (match parse_log_line l with | some e => store ++ [e] | none => store)
      constructor
      · rw [List.chain'_cons']
        exact ⟨fun b hb => ih2 b (List.mem_of_mem_head? hb), ih1⟩
      · intro ev hev
        rcases List.mem_cons.mp hev with h | h
        · rw [h]; exact hp
        · exact lt_trans hp (ih2 ev h)
    · rw [if_neg hp]
      exact ih (bytes + lineBytes l) lastp (lines + 1) _ _

theorem ingestLoop_no_emit (size : Nat) (hs : 0 < size) :
    ∀ (ls : List (List Char)) (bytes : Nat) (lines tot : Nat)
      (store : List LogEntry),
      bytes + (ls.map lineBytes).sum ≤ size →
      (ingestLoop size ls bytes 100 lines tot store).events = [] := by
  intro ls
  induction ls with
  | nil => intro bytes lines tot store _; simp [ingestLoop]
  | cons l ls ih =>
    intro bytes lines tot store hb
    simp only [List.map_cons, List.sum_cons] at hb
    have hb2 : bytes + lineBytes l ≤ size := by omega
    have hp : (bytes + lineBytes l) * 100 / size ≤ 100 := by
      calc (bytes + lineBytes l) * 100 / size
          ≤ size * 100 / size :=
            Nat.div_le_div_right (Nat.mul_le_mul_right _ hb2)
        _ = 100 := by rw [Nat.mul_comm, Nat.mul_div_cancel _ hs]
    rw [ingestLoop_cons, if_neg (by exact_mod_cast Nat.not_lt.mpr hp)]
    exact ih (bytes + lineBytes l) (lines + 1) _ _ (by omega)

theorem ingestLoop_last100 (size : Nat) (hs : 0 < size) :
    ∀ (ls : List (List Char)) (bytes : Nat) (lastp : Int) (lines tot : Nat)
      (store : List LogEntry), ls ≠ [] →
      bytes + (ls.map lineBytes).sum = size → lastp < 100 →
      ((ingestLoop size ls bytes lastp lines tot store).events.map
        SSEProgress.progress).getLast? = some 100 := by
  intro ls
  induction ls with
  | nil => intro _ _ _ _ _ hne _ _; exact absurd rfl hne
  | cons l ls ih =>
    intro bytes lastp lines tot store _ hsum hlast
    simp only [List.map_cons, List.sum_cons] at hsum
    cases ls with
    | nil =>
      have hb2 : bytes + lineBytes l = size := by simp at hsum; omega
      have hp : (bytes + lineBytes l) * 100 / size = 100 := by
        rw [hb2, Nat.mul_comm, Nat.mul_div_cancel _ hs]
      rw [ingestLoop_cons]
      rw [if_pos (by rw [hp]; exact_mod_cast hlast)]
      rw [loopOut_events_update]
      simp [ingestLoop, hp]
    | cons l2 ls2 =>
      have hb2 : bytes + lineBytes l ≤ size := by
        simp at hsum ⊢; omega
      have hple : (bytes + lineBytes l) * 100 / size ≤ 100 := by
        calc (bytes + lineBytes l) * 100 / size
            ≤ size * 100 / size :=
              Nat.div_le_div_right (Nat.mul_le_mul_right _ hb2)
          _ = 100 := by rw [Nat.mul_comm, Nat.mul_div_cancel _ hs]
      rw [ingestLoop_cons]
      by_cases hp : lastp < (((bytes + lineBytes l) * 100 / size : Nat) : Int)
      · rw [if_pos hp, loopOut_events_update]
        rcases Nat.lt_or_ge ((bytes + lineBytes l) * 100 / size) 100 with
          hlt | hge
        · have h100 : (((bytes + lineBytes l) * 100 / size : Nat) : Int) <
              100 := by exact_mod_cast hlt
          simp only [List.map_cons]
          exact getLast?_cons_some _ _ _
            (ih (bytes + lineBytes l)
              (((bytes + lineBytes l) * 100 / size : Nat) : Int) (lines + 1)
              (match parse_log_line l with | some _ => tot + 1 | none => tot)
              (match parse_log_line l with
               | some e => store ++ [e] | none => store)
              (by simp) (by simp at hsum ⊢; omega) h100)
        · have heq : (bytes + lineBytes l) * 100 / size = 100 := by omega
          have hsz : size ≤ bytes + lineBytes l := by
            have h1 : 100 ≤ (bytes + lineBytes l) * 100 / size := by omega
            rw [Nat.le_div_iff_mul_le hs] at h1
            have h2 : 100 * size ≤ 100 * (bytes + lineBytes l) := by
              calc 100 * size ≤ (bytes + lineBytes l) * 100 := h1
                _ = 100 * (bytes + lineBytes l) := Nat.mul_comm _ _
            exact Nat.le_of_mul_le_mul_left h2 (by omega)
          have hbeq : bytes + lineBytes l = size := le_antisymm hb2 hsz
          have hsum0 : ((l2 :: ls2).map lineBytes).sum = 0 := by
            simp at hsum ⊢; omega
          have hcast : (((bytes + lineBytes l) * 100 / size : Nat) : Int) =
              (100 : Int) := by exact_mod_cast heq
          rw [hcast]
          rw [ingestLoop_no_emit size hs (l2 :: ls2) (bytes + lineBytes l)
            (lines + 1) _ _ (by omega)]
          simp
      · rw [if_neg hp]
        exact ih (bytes + lineBytes l) lastp (lines + 1) _ _ (by simp)
          (by simp at hsum ⊢; omega) hlast

theorem ingestLoop_counts (size : Nat) :
    ∀ (ls : List (List Char)) (bytes : Nat) (lastp : Int) (lines tot : Nat)
      (store : List LogEntry),
      (ingestLoop size ls bytes lastp lines tot store).lines_processed =
        lines + ls.length
      ∧ (ingestLoop size ls bytes lastp lines tot store).total_entries =
        tot + (ls.filterMap parse_log_line).length
      ∧ (ingestLoop size ls bytes lastp lines tot store).store =
        store ++ ls.filterMap parse_log_line := by
  intro ls
  induction ls with
  | nil => intro bytes lastp lines tot store; simp [ingestLoop]
  | cons l ls ih =>
    intro bytes lastp lines tot store
    rw [ingestLoop_cons]
    cases hpl : parse_log_line l with
    | none =>
      simp only [hpl]
      split
      · obtain ⟨i1, i2, i3⟩ := ih (bytes + lineBytes l)
          (((bytes + lineBytes l) * 100 / size : Nat) : Int) (lines + 1)
          tot store
        refine ⟨?_, ?_, ?_⟩ <;>
          simp only [i1, i2, i3, List.filterMap_cons, hpl, List.length_cons,
            List.append_assoc, List.cons_append, List.nil_append,
            List.singleton_append] <;> omega
      · obtain ⟨i1, i2, i3⟩ := ih (bytes + lineBytes l) lastp (lines + 1)
          tot store
        refine ⟨?_, ?_, ?_⟩ <;>
          simp only [i1, i2, i3, List.filterMap_cons, hpl, List.length_cons,
            List.append_assoc, List.cons_append, List.nil_append,
            List.singleton_append] <;> omega
    | some e =>
      simp only [hpl]
      split
      · obtain ⟨i1, i2, i3⟩ := ih (bytes + lineBytes l)
          (((bytes + lineBytes l) * 100 / size : Nat) : Int) (lines + 1)
          (tot + 1) (store ++ [e])
        refine ⟨?_, ?_, ?_⟩ <;>
          simp only [i1, i2, i3, List.filterMap_cons, hpl, List.length_cons,
            List.append_assoc, List.cons_append, List.nil_append,
            List.singleton_append] <;> omega
      · obtain ⟨i1, i2, i3⟩ := ih (bytes + lineBytes l) lastp (lines + 1)
          (tot + 1) (store ++ [e])
        refine ⟨?_, ?_, ?_⟩ <;>
          simp only [i1, i2, i3, List.filterMap_cons, hpl, List.length_cons,
            List.append_assoc, List.cons_append, List.nil_append,
            List.singleton_append] <;> omega

/-- C2: the progress values emitted by one ingest run are strictly
increasing (hence non-decreasing, and an event is emitted only when the
integer percentage exceeds the last emitted value, never on every line);
and when the declared byte length is positive and equals the bytes actually
consumed, the final progress value emitted before the terminal event
is 100. -/
theorem c2_progress_monotone_final (size : Nat) (ls : List (List Char))
    (hs : 0 < size) :
    List.Chain' (· < ·) ((ingest size ls).events.map SSEProgress.progress)
    ∧ (size = (ls.map lineBytes).sum →
        ((ingest size ls).events.map SSEProgress.progress).getLast? =
          some 100) := by
  constructor
  · have h := (ingestLoop_mono size ls 0 (-1) 0 0 []).1
    rw [List.chain'_map]
    exact h
  · intro hsum
    have hne : ls ≠ [] := by
      intro h
      rw [h] at hsum
      simp at hsum
      omega
    exact ingestLoop_last100 size hs ls 0 (-1) 0 0 [] hne (by omega)
      (by norm_num)

/-- Witness for C2 on a one-line four-byte input. -/
theorem c2_progress_monotone_final_witness :
    (0 < 4) ∧ (4 = (["abc\n".toList].map lineBytes).sum) ∧
    (List.Chain' (· < ·)
      ((ingest 4 ["abc\n".toList]).events.map SSEProgress.progress)
    ∧ ((ingest 4 ["abc\n".toList]).events.map SSEProgress.progress).getLast? =
        some 100) :=
  ⟨by decide, by decide,
   (c2_progress_monotone_final 4 ["abc\n".toList] (by decide)).1,
   (c2_progress_monotone_final 4 ["abc\n".toList] (by decide)).2 (by decide)⟩

/-- C8: extraction is total — on every raw line it returns either a record
or nothing, never an error — and the pipeline continues past malformed
lines: every line of the input is processed, and the store collects exactly
the successfully parsed records. -/
theorem c8_extraction_total (line : List Char) (size : Nat)
    (ls : List (List Char)) :
    (parse_log_line line = none ∨ ∃ e, parse_log_line line = some e)
    ∧ (ingest size ls).lines_processed = ls.length
    ∧ (ingest size ls).store = ls.filterMap parse_log_line
    ∧ (ingest size ls).total_entries = (ls.filterMap parse_log_line).length := by
  obtain ⟨i1, i2, i3⟩ := ingestLoop_counts size ls 0 (-1) 0 0 []
  refine ⟨?_, ?_, ?_, ?_⟩
  · cases h : parse_log_line line with
    | none => exact Or.inl rfl
    | some e => exact Or.inr ⟨e, rfl⟩
  · show (ingestLoop size ls 0 (-1) 0 0 []).lines_processed = ls.length
    rw [i1]
    omega
  · show (ingestLoop size ls 0 (-1) 0 0 []).store = ls.filterMap parse_log_line
    rw [i3]
    rfl
  · show (ingestLoop size ls 0 (-1) 0 0 []).total_entries =
      (ls.filterMap parse_log_line).length
    rw [i2]
    omega

/-- Counterexample to C9 as stated: the pipeline itself removes the
uploaded source file on its success path, so source release is not left to
the caller. -/
theorem c9_lifecycle_counterexample :
    (ingest 9 ["[Info] x".toList]).removed_upload = true := rfl

/-- C9 (amended): every ingest run consumes the source exactly once (each
line processed once) and the pipeline itself deletes the uploaded source
file after consuming it, before emitting the terminal event. -/
theorem c9_pipeline_deletes_source (size : Nat) (ls : List (List Char)) :
    (ingest size ls).removed_upload = true
    ∧ (ingest size ls).lines_processed = ls.length := by
  refine ⟨rfl, ?_⟩
  show (ingestLoop size ls 0 (-1) 0 0 []).lines_processed = ls.length
  rw [(ingestLoop_counts size ls 0 (-1) 0 0 []).1]
  omega


/-- Counterexample to C3 as stated: a line carrying the Share marker only
in its trailing text parses to a record whose entryKind is Foo, which is
neither File nor Share. -/
theorem c3_entry_kind_counterexample :
    (parse_log_line c3Line).map LogEntry.log_entry_type = some ("Foo".toList)
    ∧ "Foo".toList ≠ "File".toList ∧ "Foo".toList ≠ "Share".toList :=
  ⟨by rfl, by decide, by decide⟩

/-- C3 (amended): every extracted record comes from one of the two
grammars — the Share grammar when the stripped line contains the Share
marker, otherwise the File grammar when it contains the File marker — and
its entryKind is the word token captured from the second bracketed field of
the line (not necessarily File or Share); lines matching neither grammar
never produce a record. -/
theorem c3_entry_kind_amended (line : List Char) (e : LogEntry)
    (h : parse_log_line line = some e) :
    (isInfixB ("[Share]".toList) (pyStrip line) = true ∧
      ∃ ts kind triage spath rw0 desc,
        matchShare (pyStrip line) = some (ts, kind, triage, spath, rw0, desc) ∧
        e.log_entry_type = kind)
    ∨ (isInfixB ("[Share]".toList) (pyStrip line) = false ∧
       isInfixB ("[File]".toList) (pyStrip line) = true ∧
       ∃ ts kind triage meta path ctx,
         matchFile (pyStrip line) = some (ts, kind, triage, meta, path, ctx) ∧
         e.log_entry_type = kind) := by
  simp only [parse_log_line] at h
  split at h
  · exact absurd h (by simp)
  · split at h
    · exact absurd h (by simp)
    · split at h
      · exact absurd h (by simp)
      · split at h
        · rename_i hc
          left
          cases hms : matchShare (pyStrip line) with
          | none => rw [hms] at h; exact absurd h (by simp)
          | some g =>
            obtain ⟨ts, kind, triage, spath, rw0, desc⟩ := g
            rw [hms] at h
            simp only [Option.some.injEq] at h
            exact ⟨hc, ts, kind, triage, spath, rw0, desc, rfl, by
              rw [← h]⟩
        · split at h
          · rename_i hnc hfc
            right
            cases hmf : matchFile (pyStrip line) with
            | none => rw [hmf] at h; exact absurd h (by simp)
            | some g =>
              obtain ⟨ts, kind, triage, meta, path, ctx⟩ := g
              rw [hmf] at h
              simp only [Option.some.injEq] at h
              exact ⟨by simpa using hnc, hfc, ts, kind, triage, meta, path,
                ctx, rfl, by rw [← h]⟩
          · exact absurd h (by simp)

/-- Witness for the amended C3 at the Scenario A line. -/
theorem c3_entry_kind_amended_witness :
    (isInfixB ("[Share]".toList) (pyStrip scenarioALine) = true ∧
      ∃ ts kind triage spath rw0 desc,
        matchShare (pyStrip scenarioALine) =
          some (ts, kind, triage, spath, rw0, desc) ∧
        scenarioAEntry.log_entry_type = kind)
    ∨ (isInfixB ("[Share]".toList) (pyStrip scenarioALine) = false ∧
       isInfixB ("[File]".toList) (pyStrip scenarioALine) = true ∧
       ∃ ts kind triage meta path ctx,
         matchFile (pyStrip scenarioALine) =
           some (ts, kind, triage, meta, path, ctx) ∧
         scenarioAEntry.log_entry_type = kind) :=
  c3_entry_kind_amended scenarioALine scenarioAEntry scenarioA_eval

theorem takeWhile_append_all {p : Char → Bool} (a b : List Char)
    (h : ∀ c ∈ a, p c = true) :
    (a ++ b).takeWhile p = a ++ b.takeWhile p := by
  induction a with
  | nil => simp
  | cons x xs ih =>
    have hx : p x = true := h x (List.mem_cons_self x xs)
    simp only [List.cons_append, List.takeWhile_cons, hx, if_true]
    rw [ih (fun c hc => h c (List.mem_cons_of_mem x hc))]

theorem dropWhile_append_all {p : Char → Bool} (a b : List Char)
    (h : ∀ c ∈ a, p c = true) :
    (a ++ b).dropWhile p = b.dropWhile p := by
  induction a with
  | nil => simp
  | cons x xs ih =>
    have hx : p x = true := h x (List.mem_cons_self x xs)
    simp only [List.cons_append, List.dropWhile_cons, hx, if_true]
    exact ih (fun c hc => h c (List.mem_cons_of_mem x hc))

theorem dropWhile_head_false {p : Char → Bool} :
    ∀ (l : List Char) (c : Char) (t2 : List Char),
      l.dropWhile p = c :: t2 → p c = false := by
  intro l
  induction l with
  | nil => intro c t2 h; simp at h
  | cons x xs ih =>
    intro c t2 h
    by_cases hx : p x
    · rw [List.dropWhile_cons_of_pos hx] at h
      exact ih c t2 h
    · rw [List.dropWhile_cons_of_neg hx] at h
      cases h
      exact Bool.not_eq_true _ ▸ (by simpa using hx)

/-- A `\w+` token match `(\w+)cl` fails when the token text contains a
non-word character (and, being the token, no closing character). -/
theorem wordTok_plus_bad (cl : Char) (t r : List Char)
    (hbad : ∃ c ∈ t, isWordC c = false) (hnb : cl ∉ t) :
    ((plusClass isWordC (t ++ cl :: r)).bind fun w =>
      (lit cl w.2).map fun r3 => (w.1, r3)) = none := by
  obtain ⟨c0, hc0, hc0w⟩ := hbad
  cases hdw : t.dropWhile isWordC with
  | nil =>
    rw [List.dropWhile_eq_nil_iff] at hdw
    have := hdw c0 hc0
    rw [hc0w] at this
    simp at this
  | cons c t2 =>
    have hcw : isWordC c = false := dropWhile_head_false t c t2 hdw
    have hdecomp : t = t.takeWhile isWordC ++ c :: t2 := by
      conv_lhs => rw [← List.takeWhile_append_dropWhile isWordC t]
      rw [hdw]
    have hcmem : c ∈ t := by rw [hdecomp]; simp
    have hcne : c ≠ cl := fun hcc => hnb (hcc ▸ hcmem)
    have htw : (t ++ cl :: r).takeWhile isWordC = t.takeWhile isWordC := by
      conv_lhs => rw [hdecomp]
      rw [List.append_assoc, List.cons_append,
        takeWhile_append_all _ _ (fun x hx => List.mem_takeWhile_imp hx)]
      simp [List.takeWhile_cons, hcw]
    have hdwf : (t ++ cl :: r).dropWhile isWordC = c :: (t2 ++ cl :: r) := by
      conv_lhs => rw [hdecomp]
      rw [List.append_assoc, List.cons_append,
        dropWhile_append_all _ _ (fun x hx => List.mem_takeWhile_imp hx)]
      simp [List.dropWhile_cons, hcw]
    simp only [plusClass, htw, hdwf]
    by_cases hemp : (t.takeWhile isWordC).isEmpty
    · simp [hemp]
    · simp only [hemp, if_false, Option.bind_some, Bool.false_eq_true]
      simp [lit, hcne]

theorem matchBraceWord_bad (t r : List Char)
    (hbad : ∃ c ∈ t, isWordC c = false) (hnb : '}' ∉ t) :
    matchBraceWord ('{' :: (t ++ '}' :: r)) = none := by
  show ((plusClass isWordC (t ++ '}' :: r)).bind fun w =>
    (lit '}' w.2).map fun r3 => (w.1, r3)) = none
  exact wordTok_plus_bad '}' t r hbad hnb

theorem matchWordBracket_bad (k r : List Char)
    (hbad : ∃ c ∈ k, isWordC c = false) (hnb : ']' ∉ k) :
    matchWordBracket ('[' :: (k ++ ']' :: r)) = none := by
  show ((plusClass isWordC (k ++ ']' :: r)).bind fun w =>
    (lit ']' w.2).map fun r3 => (w.1, r3)) = none
  exact wordTok_plus_bad ']' k r hbad hnb

theorem matchBracketAny_host (host r : List Char) (h1 : host ≠ [])
    (h2 : ']' ∉ host) :
    matchBracketAny ('[' :: (host ++ ']' :: r)) = some r := by
  have hall : ∀ c ∈ host, (c != ']') = true := by
    intro c hc
    simp only [bne_iff_ne, ne_eq]
    exact fun hcc => h2 (hcc ▸ hc)
  have htw : (host ++ ']' :: r).takeWhile (fun c => c != ']') = host := by
    rw [takeWhile_append_all _ _ hall]
    simp [List.takeWhile_cons]
  have hdw : (host ++ ']' :: r).dropWhile (fun c => c != ']') = ']' :: r := by
    rw [dropWhile_append_all _ _ hall]
    simp [List.dropWhile_cons]
  show ((plusClass (fun c => c != ']') (host ++ ']' :: r)).bind fun w =>
    lit ']' w.2) = some r
  simp only [plusClass, htw, hdw]
  rw [if_neg (by simpa using h1)]
  simp [lit]



set_option maxRecDepth 4000 in
theorem matchLead_c10LineA (host t rest : List Char) (h1 : host ≠ [])
    (h2 : ']' ∉ host) (hbad : ∃ c ∈ t, isWordC c = false) (hnb : '}' ∉ t) :
    matchLead (c10LineA host t rest) = none := by
  simp only [c10LineA, matchLead]
  rw [matchBracketAny_host host _ h1 h2]
  show ((matchBraceWord ('{' :: (t ++ '}' :: rest))).map _) = none
  rw [matchBraceWord_bad t rest hbad hnb]
  rfl

set_option maxRecDepth 4000 in
theorem matchLead_c10LineB (host k rest : List Char) (h1 : host ≠ [])
    (h2 : ']' ∉ host) (hbad : ∃ c ∈ k, isWordC c = false) (hnb : ']' ∉ k) :
    matchLead (c10LineB host k rest) = none := by
  simp only [c10LineB, matchLead]
  rw [matchBracketAny_host host _ h1 h2]
  show ((matchWordBracket ('[' :: (k ++ ']' :: rest))).bind _) = none
  rw [matchWordBracket_bad k rest hbad hnb]
  rfl

theorem matchFile_none_of_lead (s : List Char) (h : matchLead s = none) :
    matchFile s = none := by
  simp [matchFile, h]

theorem matchShare_none_of_lead (s : List Char) (h : matchLead s = none) :
    matchShare s = none := by
  simp [matchShare, h]

theorem parse_none_of_match_none (raw : List Char)
    (hs : matchShare (pyStrip raw) = none)
    (hf : matchFile (pyStrip raw) = none) :
    parse_log_line raw = none := by
  simp only [parse_log_line]
  split
  · rfl
  · split
    · rfl
    · split
      · rfl
      · split
        · rw [hs]
        · split
          · rw [hf]
          · rfl

/-- C10: a line whose braced triage-level token contains a character
outside the word class (for any line that strips to the File-marker shape
with that token), or whose bracketed entry-kind token does (for any line
that strips to that shape and contains a kind marker), is rejected:
extraction returns nothing even though the rest of the line may be
well-formed. -/
theorem c10_nonword_tokens_rejected (lineA lineB host t k restA restB : List Char)
    (hA : pyStrip lineA = c10LineA host t restA)
    (hostne : host ≠ []) (hostnb : ']' ∉ host)
    (htbad : ∃ c ∈ t, isWordC c = false) (htnb : '}' ∉ t)
    (hB : pyStrip lineB = c10LineB host k restB)
    (hkbad : ∃ c ∈ k, isWordC c = false) (hknb : ']' ∉ k)
    (hmarker : isInfixB ("[File]".toList) (pyStrip lineB) = true ∨
               isInfixB ("[Share]".toList) (pyStrip lineB) = true) :
    parse_log_line lineA = none ∧ parse_log_line lineB = none := by
  have hleadA := matchLead_c10LineA host t restA hostne hostnb htbad htnb
  have hleadB := matchLead_c10LineB host k restB hostne hostnb hkbad hknb
  constructor
  · exact parse_none_of_match_none lineA
      (by rw [hA]; exact matchShare_none_of_lead _ hleadA)
      (by rw [hA]; exact matchFile_none_of_lead _ hleadA)
  · exact parse_none_of_match_none lineB
      (by rw [hB]; exact matchShare_none_of_lead _ hleadB)
      (by rw [hB]; exact matchFile_none_of_lead _ hleadB)

set_option maxRecDepth 8000 in
/-- Witness for C10 with triage token Red Alert and kind token My Kind. -/
theorem c10_nonword_tokens_rejected_witness :
    (pyStrip (c10LineA ("HOST1".toList) ("Red Alert".toList)
        "<A|B|C|D|E>(\\\\S\\f.txt) x".toList) =
      c10LineA ("HOST1".toList) ("Red Alert".toList)
        "<A|B|C|D|E>(\\\\S\\f.txt) x".toList)
    ∧ ("HOST1".toList ≠ [] ∧ ']' ∉ "HOST1".toList)
    ∧ ((∃ c ∈ "Red Alert".toList, isWordC c = false) ∧
        '}' ∉ "Red Alert".toList)
    ∧ (pyStrip (c10LineB ("HOST1".toList) ("My Kind".toList)
        " {Red}<A|B|C|D|E>(\\\\S\\f.txt) x [File]".toList) =
      c10LineB ("HOST1".toList) ("My Kind".toList)
        " {Red}<A|B|C|D|E>(\\\\S\\f.txt) x [File]".toList)
    ∧ ((∃ c ∈ "My Kind".toList, isWordC c = false) ∧ ']' ∉ "My Kind".toList)
    ∧ (isInfixB ("[File]".toList)
        (pyStrip (c10LineB ("HOST1".toList) ("My Kind".toList)
          " {Red}<A|B|C|D|E>(\\\\S\\f.txt) x [File]".toList)) = true)
    ∧ (parse_log_line (c10LineA ("HOST1".toList) ("Red Alert".toList)
        "<A|B|C|D|E>(\\\\S\\f.txt) x".toList) = none
      ∧ parse_log_line (c10LineB ("HOST1".toList) ("My Kind".toList)
        " {Red}<A|B|C|D|E>(\\\\S\\f.txt) x [File]".toList) = none) :=
  ⟨by decide, ⟨by decide, by decide⟩, ⟨by decide, by decide⟩, by decide,
   ⟨by decide, by decide⟩, by decide,
   c10_nonword_tokens_rejected
     (c10LineA ("HOST1".toList) ("Red Alert".toList)
       "<A|B|C|D|E>(\\\\S\\f.txt) x".toList)
     (c10LineB ("HOST1".toList) ("My Kind".toList)
       " {Red}<A|B|C|D|E>(\\\\S\\f.txt) x [File]".toList)
     ("HOST1".toList) ("Red Alert".toList) ("My Kind".toList)
     "<A|B|C|D|E>(\\\\S\\f.txt) x".toList
     " {Red}<A|B|C|D|E>(\\\\S\\f.txt) x [File]".toList
     (by decide) (by decide) (by decide) (by decide) (by decide) (by decide)
     (by decide) (by decide) (Or.inl (by decide))⟩
